import Mathlib

/-! Interactive chart (`script.js`): rolling buffers, smoothing, statistics, tooltip, drawing.

A shallow embedding of the chart script.  Numbers are exact rationals, the
results of `Math.random()` are parameters, and the canvas is the list of
drawing commands issued on it.  The tooltip index is the one value whose
rounding the statements are about: there every subtraction and division is
rounded to double precision, as the handler computes it.
-/

namespace Chart

/-! ## Configuration and data series -/

/-- The constant `MAX_POINTS` of the script. -/
def MAX_POINTS : Nat := 50

/-- One element of the `series` array: `{ data: [], colorIndex: k }`. -/
structure Series where
  data : List ℚ
  colorIndex : Nat
deriving DecidableEq

/-! ## Utils -/

/-- The body of `randomValue`, with `r` the result of `Math.random()`. -/
def randomValue (min max r : ℚ) : ℚ :=
  r * (max - min) + min

/-- The per-series step of `updateData`:
`s.data.push(v); if (s.data.length > MAX_POINTS) s.data.shift();`. -/
def pushShift (data : List ℚ) (v : ℚ) : List ℚ :=
  let pushed := data ++ [v]
  if pushed.length > MAX_POINTS then pushed.tail else pushed

/-- The `forEach` of `updateData` from series position `i` on; `rnd k` is the
result of the `Math.random()` call made for the series at position `k`. -/
def updateDataFrom (min max : ℚ) (rnd : Nat → ℚ) : Nat → List Series → List Series
  | _, [] => []
  | i, s :: rest =>
    { s with data := pushShift s.data (randomValue min max (rnd i)) } ::
      updateDataFrom min max rnd (i + 1) rest

/-- The function `updateData`; `min` and `max` are the values of the two inputs. -/
def updateData (min max : ℚ) (rnd : Nat → ℚ) (series : List Series) : List Series :=
  updateDataFrom min max rnd 0 series

/-- The JavaScript index normalisation of `Array.prototype.slice`: a negative
argument counts from the end, and the result is clamped to `0 .. len`. -/
def sliceIndex (len : Nat) (k : Int) : Nat :=
  if k < 0 then (max ((len : Int) + k) 0).toNat else min k.toNat len

/-- The call `arr.slice(start, stop)` on integer arguments. -/
def slice (arr : List ℚ) (start stop : Int) : List ℚ :=
  let lo := sliceIndex arr.length start
  let hi := sliceIndex arr.length stop
  (arr.drop lo).take (hi - lo)

/-- The function `movingAverage(data, window)`:
`data.map((_, i, arr) => { slice = arr.slice(Math.max(0, i - window), i + 1);
return slice.reduce((a, b) => a + b, 0) / slice.length })`.
The quotient by an empty slice (NaN in JavaScript) is `0` here; it only
arises for a negative window. -/
def movingAverage (data : List ℚ) (window : Int) : List ℚ :=
  data.mapIdx fun i _ =>
    let sl := slice data (max 0 ((i : Int) - window)) ((i : Int) + 1)
    sl.foldl (fun a b => a + b) 0 / (sl.length : ℚ)

/-- The default value of the parameter `window`. -/
def defaultWindow : Int := 3

/-! ## Themes -/

/-- One entry of the table `themes`. -/
structure Theme where
  bg : String
  grid : String
  series : List String
deriving DecidableEq

def themes.light : Theme :=
  { bg := "#ffffff", grid := "#e0e0e0", series := ["#e53935", "#1e88e5", "#43a047"] }

def themes.dark : Theme :=
  { bg := "#121212", grid := "#333", series := ["#ff5252", "#40c4ff", "#69f0ae"] }

def themes.contrast : Theme :=
  { bg := "#000000", grid := "#777", series := ["#ff0000", "#00ff00", "#00ffff"] }

/-! ## Drawing -/

/-- The calls made on the 2D context `ctx`, in the order they are made.
A colour is `none` when the theme has no entry at the colour index. -/
inductive Cmd where
  | setStrokeStyle (c : Option String)
  | setFillStyle (c : Option String)
  | setLineWidth (w : ℚ)
  | setGlobalAlpha (a : ℚ)
  | beginPath
  | moveTo (x y : ℚ)
  | lineTo (x y : ℚ)
  | stroke
  | fill
  | fillRect (x y w h : ℚ)
  | arcFull (x y r : ℚ)
deriving DecidableEq

/-- The values of the `chartType` select that `drawSeries` tests for. -/
inductive ChartType where
  | line
  | area
  | bar
  | scatter
deriving DecidableEq

/-- The `forEach` body of the line and area branch for sample `v` at index `i`. -/
def linePoint (height stepX : ℚ) (i : Nat) (v : ℚ) : Cmd :=
  let x := (i : ℚ) * stepX
  let y := height - (v / 100) * height
  if i = 0 then Cmd.moveTo x y else Cmd.lineTo x y

/-- The `forEach` body of the bar branch for sample `v` at index `i`. -/
def barRect (height stepX barWidth : ℚ) (sIndex i : Nat) (v : ℚ) : Cmd :=
  let x := (i : ℚ) * stepX + (sIndex : ℚ) * barWidth
  let y := height - (v / 100) * height
  let h := height - y
  Cmd.fillRect x y (barWidth - 2) h

/-- The `forEach` body of the scatter branch for sample `v` at index `i`. -/
def scatterDot (height stepX : ℚ) (i : Nat) (v : ℚ) : List Cmd :=
  let x := (i : ℚ) * stepX
  let y := height - (v / 100) * height
  [Cmd.beginPath, Cmd.arcFull x y 4, Cmd.fill]

/-- The body of `series.forEach((s, sIndex) => ...)` in `drawSeries`;
`count` is `series.length`. -/
def drawOneSeries (type : ChartType) (smooth : Bool) (theme : Theme)
    (width height stepX : ℚ) (count : Nat) (sIndex : Nat) (s : Series) : List Cmd :=
  let data := if smooth then movingAverage s.data defaultWindow else s.data
  [Cmd.setStrokeStyle theme.series[s.colorIndex]?,
   Cmd.setFillStyle theme.series[s.colorIndex]?,
   Cmd.setLineWidth 2]
  ++ (if type = ChartType.line ∨ type = ChartType.area then
        [Cmd.beginPath] ++ data.mapIdx (linePoint height stepX) ++ [Cmd.stroke]
        ++ (if type = ChartType.area then
              [Cmd.lineTo width height, Cmd.lineTo 0 height,
               Cmd.setGlobalAlpha (1 / 4), Cmd.fill, Cmd.setGlobalAlpha 1]
            else [])
      else [])
  ++ (if type = ChartType.bar then
        let barGroupWidth := stepX
        let barWidth := barGroupWidth / (count : ℚ)
        data.mapIdx (barRect height stepX barWidth sIndex)
      else [])
  ++ (if type = ChartType.scatter then
        (data.mapIdx (scatterDot height stepX)).flatten
      else [])

/-- The function `drawSeries(type)`; `width` and `height` are those of the canvas. -/
def drawSeries (type : ChartType) (smooth : Bool) (theme : Theme)
    (width height : ℚ) (series : List Series) : List Cmd :=
  let stepX := width / (((MAX_POINTS - 1 : Nat) : ℚ))
  (series.mapIdx (drawOneSeries type smooth theme width height stepX series.length)).flatten

/-! ## Stats -/

inductive Trend where
  | rising
  | falling
deriving DecidableEq

/-- The five numbers and the trend `updateStats` writes, before `toFixed(2)`. -/
structure Stats where
  current : ℚ
  min : ℚ
  max : ℚ
  avg : ℚ
  trend : Trend
deriving DecidableEq

/-- The function `updateStats`; `panel` is the content of the `stats` element
(`none` while the script has not written it) and the result is its content
after the call. -/
def updateStats (series : List Series) (panel : Option Stats) : Option Stats :=
  let all := series.flatMap fun s => s.data
  match all with
  | [] => panel
  | first :: rest =>
    let last := (first :: rest).getLast (List.cons_ne_nil first rest)
    some
      { current := last
        min := rest.foldl Min.min first
        max := rest.foldl Max.max first
        avg := (first :: rest).foldl (fun a b => a + b) 0 / (((first :: rest).length : ℚ))
        trend := if last > first then Trend.rising else Trend.falling }

/-- The mutable globals the timer and the controls act on, with the content
of the stats panel. -/
structure State where
  series : List Series
  running : Bool
  stats : Option Stats
deriving DecidableEq

/-- The globals as the script declares them: three empty series, running. -/
def initState : State :=
  { series := [⟨[], 0⟩, ⟨[], 1⟩, ⟨[], 2⟩], running := true, stats := none }

/-! ## Tooltip -/

/-- The function `Math.round`: the nearest integer, a tie going to the larger one. -/
def mathRound (x : ℚ) : Int :=
  if x - (⌊x⌋ : ℚ) < 1 / 2 then ⌊x⌋ else ⌊x⌋ + 1

/-- Rounding to the nearest integer, a tie going to the even one. -/
def roundHalfEven (q : ℚ) : Int :=
  if q - (⌊q⌋ : ℚ) < 1 / 2 then ⌊q⌋
  else if 1 / 2 < q - (⌊q⌋ : ℚ) then ⌊q⌋ + 1
  else if ⌊q⌋ % 2 = 0 then ⌊q⌋ else ⌊q⌋ + 1

/-- The exponent of the spacing of the doubles around `x`: `2 ^ (e - 52)` for
`2 ^ e ≤ |x| < 2 ^ (e + 1)`, and the subnormal spacing `2 ^ (-1074)` below
`2 ^ (-1022)`. -/
def ulpExp (x : ℚ) : Int :=
  max (Int.log 2 |x|) (-1022) - 52

/-- The double an exact result is rounded to (IEEE 754 binary64, round to
nearest, ties to even); `none` when the result overflows to an infinity.  The
sign of a zero result is not kept: it shows only in a division by that zero,
which gives no finite number for either sign. -/
def toDouble (x : ℚ) : Option ℚ :=
  let y := (roundHalfEven (x / 2 ^ ulpExp x) : ℚ) * 2 ^ ulpExp x
  if |y| < 2 ^ (1024 : ℕ) then some y else none

/-- The argument of `Math.round` in the `mousemove` handler,
`(e.clientX - rect.left) / (canvas.width / (MAX_POINTS - 1))`, each operation
rounded to a double; `canvasWidth` is the unsigned integer `canvas.width` and
the other two arguments are doubles.  The result is `none` when it is not a
finite number: the difference overflows, or the step is zero (the quotient is
then an infinity or NaN). -/
def tooltipQuotient (canvasWidth : Nat) (rectLeft clientX : ℚ) : Option ℚ :=
  match toDouble (clientX - rectLeft),
      toDouble ((canvasWidth : ℚ) / (((MAX_POINTS - 1 : Nat) : ℚ))) with
  | some d, some stepX => if stepX = 0 then none else toDouble (d / stepX)
  | _, _ => none

/-- The index computed by the `mousemove` handler; `none` when `Math.round`
returns its argument unchanged because it is an infinity or NaN. -/
def tooltipIndex (canvasWidth : Nat) (rectLeft clientX : ℚ) : Option Int :=
  (tooltipQuotient canvasWidth rectLeft clientX).map mathRound

/-- The array read `data[index]`; `none` is `undefined`. -/
def lookup (data : List ℚ) (index : Int) : Option ℚ :=
  if index < 0 then none else data[index.toNat]?

/-- The tooltip element: whether it is displayed, its position, and the values
its lines list. -/
structure Tooltip where
  shown : Bool
  left : ℚ
  top : ℚ
  lines : List ℚ
deriving DecidableEq

/-- The `mousemove` handler.  An index that is not a finite number selects no
sample, so the test fails and the tooltip stays as it was.  A `toFixed` call
on `undefined` throws, which ends the handler after the position was set and
before the lines are written. -/
def onMouseMove (series : List Series) (canvasWidth : Nat)
    (rectLeft clientX pageX pageY : ℚ) (tip : Tooltip) : Tooltip :=
  match tooltipIndex canvasWidth rectLeft clientX, series.head? with
  | some index, some s0 =>
    if (lookup s0.data index).isSome then
      let placed := { tip with shown := true, left := pageX + 10, top := pageY + 10 }
      let cells := series.map fun s => lookup s.data index
      if cells.all Option.isSome then { placed with lines := cells.filterMap id } else placed
    else tip
  | _, _ => tip

/-! ## Controls and the timer loop -/

/-- The `onclick` handler of `toggleRun`. -/
def toggleRun (st : State) : State :=
  { st with running := !st.running }

/-- The `onclick` handler of `reset`: `series.forEach(s => (s.data = []))`. -/
def reset (st : State) : State :=
  { st with series := st.series.map fun s => { s with data := [] } }

/-- The state change of `draw()`: the canvas calls leave the globals alone,
`updateStats` rewrites the stats panel. -/
def draw (st : State) : State :=
  { st with stats := updateStats st.series st.stats }

/-- The `setInterval` callback: `if (running) updateData(); draw();`. -/
def tick (min max : ℚ) (rnd : Nat → ℚ) (st : State) : State :=
  draw (if st.running then { st with series := updateData min max rnd st.series } else st)

/-- What can happen to the globals: a timer tick (with the values of the two
range inputs and the random draws of that tick), or a click on a button. -/
inductive Event where
  | tick (min max : ℚ) (rnd : Nat → ℚ)
  | reset
  | toggleRun

def step (st : State) : Event → State
  | Event.tick min max rnd => tick min max rnd st
  | Event.reset => reset st
  | Event.toggleRun => toggleRun st

/-- The states the script can be in: those a finite run of events leads to
from the declared globals. -/
inductive Reachable : State → Prop where
  | init : Reachable initState
  | step (st : State) (e : Event) : Reachable st → Reachable (step st e)

/-! ## Definitions the statements use -/

/-- The value-to-y mapping as the specification words it. -/
def valueToY (height v : ℚ) : ℚ :=
  height - (v / 100) * height

/-- The y coordinate a drawing call places a sample at, if it places one. -/
def Cmd.yCoord : Cmd → Option ℚ
  | Cmd.moveTo _ y => some y
  | Cmd.lineTo _ y => some y
  | Cmd.fillRect _ y _ _ => some y
  | Cmd.arcFull _ y _ => some y
  | _ => none

/-- The buffers of a state all hold `n` values. -/
def AllLength (n : Nat) (series : List Series) : Prop :=
  ∀ s ∈ series, s.data.length = n

/-- Whether a `stroke` call follows the first `fill` call. -/
def strokeAfterFill (cmds : List Cmd) : Bool :=
  (cmds.dropWhile fun c => c != Cmd.fill).contains Cmd.stroke

/-- Whether a `fill` call follows the first `stroke` call. -/
def fillAfterStroke (cmds : List Cmd) : Bool :=
  (cmds.dropWhile fun c => c != Cmd.stroke).contains Cmd.fill

/-! ## Rolling buffer -/

theorem pushShift_length (data : List ℚ) (v : ℚ) :
    (pushShift data v).length =
      if data.length + 1 > MAX_POINTS then data.length else data.length + 1 := by
  unfold pushShift
  by_cases h : data.length + 1 > MAX_POINTS <;> simp [h]

theorem pushShift_length_le (data : List ℚ) (v : ℚ) (h : data.length ≤ MAX_POINTS) :
    (pushShift data v).length ≤ MAX_POINTS := by
  rw [pushShift_length]
  split <;> omega

/-- Appending to a buffer that holds the last `MAX_POINTS` values of `pre`
gives the last `MAX_POINTS` values of `pre ++ [v]`. -/
theorem pushShift_drop (pre : List ℚ) (v : ℚ) :
    pushShift (pre.drop (pre.length - MAX_POINTS)) v =
      (pre ++ [v]).drop ((pre ++ [v]).length - MAX_POINTS) := by
  unfold pushShift
  simp only [MAX_POINTS, List.length_append, List.length_drop, List.length_singleton]
  by_cases h : 50 ≤ pre.length
  · have h1 : pre.length - (pre.length - 50) + 1 > 50 := by omega
    have h2 : pre.length + 1 - 50 = (pre.length - 50) + 1 := by omega
    have h3 : pre.length - 50 + 1 ≤ pre.length := by omega
    rw [if_pos h1, h2, List.drop_append_of_le_length h3]
    cases hd : pre.drop (pre.length - 50) with
    | nil =>
      have := congrArg List.length hd
      simp at this
      omega
    | cons x xs =>
      have : pre.drop (pre.length - 50 + 1) = xs := by
        rw [← List.drop_drop, hd]
        rfl
      simp [this]
  · have h1 : ¬ (pre.length - (pre.length - 50) + 1 > 50) := by omega
    have h2 : pre.length + 1 - 50 = 0 := by omega
    have h3 : pre.length - 50 = 0 := by omega
    rw [if_neg h1, h2, h3]
    simp

/-- Closed form of the rolling buffer: after appending `vs` one by one to the
empty buffer it holds the last `MAX_POINTS` of them. -/
theorem foldl_pushShift (vs : List ℚ) :
    vs.foldl pushShift [] = vs.drop (vs.length - MAX_POINTS) := by
  induction vs using List.reverseRecOn with
  | nil => rfl
  | append_singleton pre v ih =>
    rw [List.foldl_append, List.foldl_cons, List.foldl_nil, ih, pushShift_drop]

/-! ## The timer loop and the controls: what they keep -/

theorem updateDataFrom_length (min max : ℚ) (rnd : Nat → ℚ) (i : Nat) (series : List Series) :
    (updateDataFrom min max rnd i series).length = series.length := by
  induction series generalizing i with
  | nil => rfl
  | cons s rest ih => simp [updateDataFrom, ih]

/-- Every series after `updateData` is a series from before with one value
pushed (and possibly one shifted out). -/
theorem mem_updateDataFrom (min max : ℚ) (rnd : Nat → ℚ) (i : Nat) (series : List Series)
    (t : Series) (ht : t ∈ updateDataFrom min max rnd i series) :
    ∃ s ∈ series, ∃ v, t.data = pushShift s.data v ∧ t.colorIndex = s.colorIndex := by
  induction series generalizing i with
  | nil => simp [updateDataFrom] at ht
  | cons s rest ih =>
    simp only [updateDataFrom, List.mem_cons] at ht
    rcases ht with rfl | ht
    · exact ⟨s, List.mem_cons_self _ _, _, rfl, rfl⟩
    · obtain ⟨s', hs', v, h1, h2⟩ := ih (i + 1) ht
      exact ⟨s', List.mem_cons_of_mem _ hs', v, h1, h2⟩

theorem allLength_updateData (min max : ℚ) (rnd : Nat → ℚ) (n : Nat) (series : List Series)
    (h : AllLength n series) :
    AllLength (if n + 1 > MAX_POINTS then n else n + 1) (updateData min max rnd series) := by
  intro t ht
  obtain ⟨s, hs, v, h1, _⟩ := mem_updateDataFrom min max rnd 0 series t ht
  rw [h1, pushShift_length, h s hs]

theorem allLength_reset (st : State) : AllLength 0 (reset st).series := by
  intro t ht
  simp only [reset, List.mem_map] at ht
  obtain ⟨s, _, rfl⟩ := ht
  rfl

/-- In a reachable state there are three series, their buffers have one common
length, and that length is at most `MAX_POINTS`. -/
theorem reachable_allLength (st : State) (h : Reachable st) :
    st.series.length = 3 ∧ ∃ n, n ≤ MAX_POINTS ∧ AllLength n st.series := by
  induction h with
  | init =>
    refine ⟨rfl, 0, Nat.zero_le _, ?_⟩
    intro s hs
    simp [initState] at hs
    rcases hs with rfl | rfl | rfl <;> rfl
  | step st e _ ih =>
    obtain ⟨h3, n, hn, hall⟩ := ih
    cases e with
    | tick min max rnd =>
      by_cases hr : st.running
      · refine ⟨?_, (if n + 1 > MAX_POINTS then n else n + 1), ?_, ?_⟩
        · simp [step, tick, draw, hr, updateData, updateDataFrom_length, h3]
        · split <;> omega
        · simpa [step, tick, draw, hr] using allLength_updateData min max rnd n st.series hall
      · exact ⟨by simpa [step, tick, draw, hr] using h3, n, hn,
          by simpa [step, tick, draw, hr] using hall⟩
    | reset =>
      exact ⟨by simpa [step, reset] using h3, 0, Nat.zero_le _, allLength_reset st⟩
    | toggleRun => exact ⟨h3, n, hn, hall⟩

theorem lookup_isSome_iff (data : List ℚ) (index : Int) :
    (lookup data index).isSome ↔ 0 ≤ index ∧ index.toNat < data.length := by
  unfold lookup
  by_cases h : index < 0
  · simp [h]
  · simp only [h, if_false]
    constructor
    · intro hs
      refine ⟨by omega, ?_⟩
      by_contra hlt
      rw [List.getElem?_eq_none (by omega)] at hs
      simp at hs
    · rintro ⟨_, hlt⟩
      rw [List.getElem?_eq_getElem hlt]
      rfl

/-! ## Rounding -/

theorem mathRound_eq_floor (x : ℚ) : mathRound x = ⌊x + 1 / 2⌋ := by
  unfold mathRound
  have h0 := Int.floor_le x
  have h1 := Int.lt_floor_add_one x
  split
  · next h =>
    symm
    rw [Int.floor_eq_iff]
    constructor <;> linarith
  · next h =>
    symm
    rw [Int.floor_eq_iff]
    push_cast
    constructor <;> linarith

/-! ## Double-precision rounding -/

theorem roundHalfEven_mem (q : ℚ) : roundHalfEven q = ⌊q⌋ ∨
    (roundHalfEven q = ⌊q⌋ + 1 ∧ 1 / 2 ≤ q - (⌊q⌋ : ℚ)) := by
  unfold roundHalfEven
  split
  · exact Or.inl rfl
  · next h =>
    have h' : 1 / 2 ≤ q - (⌊q⌋ : ℚ) := not_lt.mp h
    split
    · exact Or.inr ⟨rfl, h'⟩
    · split
      · exact Or.inl rfl
      · exact Or.inr ⟨rfl, h'⟩

theorem le_roundHalfEven (n : ℤ) (q : ℚ) (h : (n : ℚ) ≤ q) : n ≤ roundHalfEven q := by
  have hf : n ≤ ⌊q⌋ := Int.le_floor.mpr h
  rcases roundHalfEven_mem q with h' | ⟨h', _⟩ <;> omega

theorem roundHalfEven_le (n : ℤ) (q : ℚ) (h : q ≤ (n : ℚ)) : roundHalfEven q ≤ n := by
  have hf : (⌊q⌋ : ℚ) ≤ q := Int.floor_le q
  rcases roundHalfEven_mem q with h' | ⟨h', hhalf⟩
  · rw [h']
    exact_mod_cast hf.trans h
  · rw [h']
    have : (⌊q⌋ : ℚ) < n := by linarith
    have : ⌊q⌋ < n := by exact_mod_cast this
    omega

theorem roundHalfEven_eq_of (q : ℚ) (n : ℤ) (h1 : (n : ℚ) - 1 / 2 < q)
    (h2 : q < (n : ℚ) + 1 / 2) : roundHalfEven q = n := by
  have hf : (⌊q⌋ : ℚ) ≤ q := Int.floor_le q
  have hf' : q < (⌊q⌋ : ℚ) + 1 := Int.lt_floor_add_one q
  rcases roundHalfEven_mem q with h' | ⟨h', hhalf⟩
  · rw [h']
    have hlow : q - (⌊q⌋ : ℚ) ≤ 1 / 2 := by
      by_contra hc
      push_neg at hc
      have : roundHalfEven q = ⌊q⌋ + 1 := by
        unfold roundHalfEven
        rw [if_neg (by linarith), if_pos hc]
      omega
    have a1 : ((⌊q⌋ : ℤ) : ℚ) < (n : ℚ) + 1 := by linarith
    have a2 : (n : ℚ) - 1 < ((⌊q⌋ : ℤ) : ℚ) := by linarith
    have b1 : ⌊q⌋ < n + 1 := by exact_mod_cast a1
    have b2 : n - 1 < ⌊q⌋ := by exact_mod_cast a2
    omega
  · rw [h']
    have a1 : ((⌊q⌋ : ℤ) : ℚ) + 1 < (n : ℚ) + 1 := by linarith
    have a2 : (n : ℚ) - 1 < ((⌊q⌋ : ℤ) : ℚ) + 1 := by linarith
    have b1 : ⌊q⌋ + 1 < n + 1 := by exact_mod_cast a1
    have b2 : n - 1 < ⌊q⌋ + 1 := by exact_mod_cast a2
    omega

theorem ulpExp_le (x : ℚ) (b : ℤ) (hb : 0 ≤ b) (hx : |x| ≤ 2 ^ b) : ulpExp x ≤ b := by
  unfold ulpExp
  have hlog : Int.log 2 |x| ≤ b := by
    rcases eq_or_lt_of_le (abs_nonneg x) with h0 | hpos
    · rw [← h0, Int.log_zero_right]
      exact hb
    · have := Int.log_mono_right (b := 2) hpos hx
      rwa [show ((2 : ℚ) ^ b) = ((2 : ℕ) : ℚ) ^ b by norm_num, Int.log_zpow (by norm_num)] at this
  omega

/-- Rounding keeps a power-of-two bound, so it does not overflow below `2 ^ 1024`. -/
theorem toDouble_of_abs_le (x : ℚ) (b : ℤ) (hb : 0 ≤ b) (hb' : b < 1024) (hx : |x| ≤ 2 ^ b) :
    ∃ y, toDouble x = some y ∧ |y| ≤ 2 ^ b := by
  have hu := ulpExp_le x b hb hx
  have hp : (0 : ℚ) < 2 ^ ulpExp x := by positivity
  obtain ⟨k, hk⟩ := Int.eq_ofNat_of_zero_le (sub_nonneg.mpr hu)
  have hN : (((2 ^ k : ℕ) : ℤ) : ℚ) * 2 ^ ulpExp x = 2 ^ b := by
    push_cast
    rw [← zpow_natCast, ← zpow_add₀ (by norm_num : (2 : ℚ) ≠ 0), ← hk]
    congr 1
    omega
  have hxb := abs_le.mp hx
  have hup : roundHalfEven (x / 2 ^ ulpExp x) ≤ ((2 ^ k : ℕ) : ℤ) := by
    apply roundHalfEven_le
    rw [div_le_iff₀ hp, hN]
    exact hxb.2
  have hlo : -((2 ^ k : ℕ) : ℤ) ≤ roundHalfEven (x / 2 ^ ulpExp x) := by
    apply le_roundHalfEven
    rw [le_div_iff₀ hp]
    push_cast
    rw [neg_mul]
    have := hN
    push_cast at this
    rw [this]
    exact hxb.1
  have hy : |(roundHalfEven (x / 2 ^ ulpExp x) : ℚ) * 2 ^ ulpExp x| ≤ 2 ^ b := by
    rw [abs_le, ← hN]
    constructor
    · rw [← neg_mul]
      apply mul_le_mul_of_nonneg_right _ hp.le
      exact_mod_cast hlo
    · apply mul_le_mul_of_nonneg_right _ hp.le
      exact_mod_cast hup
  refine ⟨_, ?_, hy⟩
  unfold toDouble
  simp only
  rw [if_pos]
  calc |(roundHalfEven (x / 2 ^ ulpExp x) : ℚ) * 2 ^ ulpExp x| ≤ 2 ^ b := hy
    _ < 2 ^ (1024 : ℕ) := by
      rw [← zpow_natCast]
      exact zpow_lt_zpow_right₀ (by norm_num) (by omega)

/-- Rounding does not take a value below a power of two of the normal range
that it is at least. -/
theorem le_toDouble (x : ℚ) (a : ℤ) (ha : -1022 ≤ a) (hx : 2 ^ a ≤ x) (y : ℚ)
    (hy : toDouble x = some y) : 2 ^ a ≤ y := by
  have hxpos : 0 < x := lt_of_lt_of_le (by positivity) hx
  have habs : |x| = x := abs_of_pos hxpos
  have hlog : a ≤ Int.log 2 x := by
    rw [← Int.zpow_le_iff_le_log (by norm_num) hxpos]
    exact_mod_cast hx
  have hu : ulpExp x = Int.log 2 x - 52 := by
    unfold ulpExp
    rw [habs]
    omega
  have hself : (2 : ℚ) ^ Int.log 2 x ≤ x := by
    have := Int.zpow_log_le_self (b := 2) (by norm_num) hxpos
    exact_mod_cast this
  have hp : (0 : ℚ) < 2 ^ ulpExp x := by positivity
  have hN : (((2 ^ 52 : ℕ) : ℤ) : ℚ) * 2 ^ ulpExp x = 2 ^ Int.log 2 x := by
    have hc : (((2 ^ 52 : ℕ) : ℤ) : ℚ) = (2 : ℚ) ^ (52 : ℤ) := by norm_num
    rw [hc, ← zpow_add₀ (by norm_num : (2 : ℚ) ≠ 0), hu]
    congr 1
    omega
  have hm : ((2 ^ 52 : ℕ) : ℤ) ≤ roundHalfEven (x / 2 ^ ulpExp x) := by
    apply le_roundHalfEven
    rw [le_div_iff₀ hp, hN]
    exact hself
  unfold toDouble at hy
  simp only at hy
  split at hy
  · injection hy with hy
    rw [← hy]
    calc (2 : ℚ) ^ a ≤ 2 ^ Int.log 2 x := zpow_le_zpow_right₀ (by norm_num) hlog
      _ = (((2 ^ 52 : ℕ) : ℤ) : ℚ) * 2 ^ ulpExp x := hN.symm
      _ ≤ _ := by
        apply mul_le_mul_of_nonneg_right _ hp.le
        exact_mod_cast hm
  · exact absurd hy (by simp)

theorem toDouble_eq_of_pos (x : ℚ) (e n : ℤ) (he : -1022 ≤ e) (h1 : 2 ^ e ≤ x)
    (h2 : x < 2 ^ (e + 1)) (hn1 : (n : ℚ) - 1 / 2 < x / 2 ^ (e - 52))
    (hn2 : x / 2 ^ (e - 52) < (n : ℚ) + 1 / 2) (hn0 : 0 ≤ n)
    (hlt : (n : ℚ) * 2 ^ (e - 52) < 2 ^ (1024 : ℕ)) :
    toDouble x = some ((n : ℚ) * 2 ^ (e - 52)) := by
  have hpos : 0 < x := lt_of_lt_of_le (by positivity) h1
  have hlog : Int.log 2 |x| = e := by
    rw [abs_of_pos hpos]
    have a1 : e ≤ Int.log 2 x := by
      rw [← Int.zpow_le_iff_le_log (by norm_num) hpos]
      exact_mod_cast h1
    have a2 : Int.log 2 x < e + 1 := by
      rw [← Int.lt_zpow_iff_log_lt (by norm_num) hpos]
      exact_mod_cast h2
    omega
  have hu : ulpExp x = e - 52 := by
    unfold ulpExp
    rw [hlog]
    omega
  have hy0 : (0 : ℚ) ≤ (n : ℚ) * 2 ^ (e - 52) :=
    mul_nonneg (by exact_mod_cast hn0) (by positivity)
  have hlt' : |(n : ℚ) * 2 ^ (e - 52)| < 2 ^ (1024 : ℕ) := by
    rw [abs_of_nonneg hy0]
    exact hlt
  unfold toDouble
  simp only [hu, roundHalfEven_eq_of _ n hn1 hn2]
  rw [if_pos hlt']

theorem toDouble_zero : toDouble 0 = some 0 := by
  have hu : ulpExp 0 = -52 := by
    unfold ulpExp
    rw [abs_zero, Int.log_zero_right]
    rfl
  have hr : roundHalfEven (0 / 2 ^ (-52 : ℤ)) = 0 := by
    rw [zero_div]
    exact roundHalfEven_eq_of 0 0 (by norm_num) (by norm_num)
  unfold toDouble
  simp only [hu, hr, Int.cast_zero, zero_mul, abs_zero]
  rw [if_pos (by positivity)]

/-- The quotient the handler computes from the three rounded operations. -/
theorem tooltipQuotient_of (canvasWidth : Nat) (rectLeft clientX d stepX q : ℚ)
    (hd : toDouble (clientX - rectLeft) = some d)
    (hs : toDouble ((canvasWidth : ℚ) / (50 - 1)) = some stepX) (hs0 : stepX ≠ 0)
    (hq : toDouble (d / stepX) = some q) :
    tooltipQuotient canvasWidth rectLeft clientX = some q := by
  have h49 : (((MAX_POINTS - 1 : Nat) : ℚ)) = 50 - 1 := by norm_num [MAX_POINTS]
  unfold tooltipQuotient
  rw [h49, hd, hs]
  show (if stepX = 0 then none else toDouble (d / stepX)) = some q
  rw [if_neg hs0, hq]

/-- The index the handler computes from the three rounded operations. -/
theorem tooltipIndex_of (canvasWidth : Nat) (rectLeft clientX d stepX q : ℚ)
    (hd : toDouble (clientX - rectLeft) = some d)
    (hs : toDouble ((canvasWidth : ℚ) / (50 - 1)) = some stepX) (hs0 : stepX ≠ 0)
    (hq : toDouble (d / stepX) = some q) :
    tooltipIndex canvasWidth rectLeft clientX = some ⌊q + 1 / 2⌋ := by
  unfold tooltipIndex
  rw [tooltipQuotient_of canvasWidth rectLeft clientX d stepX q hd hs hs0 hq,
    ← mathRound_eq_floor]
  rfl

theorem toDouble_490_div_49 : toDouble ((490 : ℚ) / (50 - 1)) = some 10 := by
  have := toDouble_eq_of_pos ((490 : ℚ) / (50 - 1)) 3 (10 * 2 ^ 49) (by norm_num)
    (by norm_num) (by norm_num) (by norm_num) (by norm_num) (by norm_num) (by norm_num)
  rw [this]
  norm_num

theorem toDouble_25_div_10 : toDouble ((25 : ℚ) / 10) = some (5 / 2) := by
  have := toDouble_eq_of_pos ((25 : ℚ) / 10) 1 (5 * 2 ^ 50) (by norm_num) (by norm_num)
    (by norm_num) (by norm_num) (by norm_num) (by norm_num) (by norm_num)
  rw [this]
  norm_num

theorem toDouble_406_div_49 :
    toDouble ((406 : ℚ) / (50 - 1)) = some (4664442471205157 / 562949953421312) := by
  have := toDouble_eq_of_pos ((406 : ℚ) / (50 - 1)) 3 4664442471205157 (by norm_num)
    (by norm_num) (by norm_num) (by norm_num) (by norm_num) (by norm_num) (by norm_num)
  rw [this]
  norm_num

theorem toDouble_29_div_step :
    toDouble ((29 : ℚ) / (4664442471205157 / 562949953421312)) =
      some (7881299347898367 / 2251799813685248) := by
  have := toDouble_eq_of_pos ((29 : ℚ) / (4664442471205157 / 562949953421312)) 1
    7881299347898367 (by norm_num) (by norm_num) (by norm_num) (by norm_num) (by norm_num)
    (by norm_num) (by norm_num)
  rw [this]
  norm_num

theorem toDouble_29 : toDouble ((29 : ℚ) - 0) = some 29 := by
  have := toDouble_eq_of_pos ((29 : ℚ) - 0) 4 (29 * 2 ^ 48) (by norm_num) (by norm_num)
    (by norm_num) (by norm_num) (by norm_num) (by norm_num) (by norm_num)
  rw [this]
  norm_num

theorem toDouble_25 : toDouble ((25 : ℚ) - 0) = some 25 := by
  have := toDouble_eq_of_pos ((25 : ℚ) - 0) 4 (25 * 2 ^ 48) (by norm_num) (by norm_num)
    (by norm_num) (by norm_num) (by norm_num) (by norm_num) (by norm_num)
  rw [this]
  norm_num

/-- Where double rounding decides the index: on a canvas 406 wide with the
pointer 29 px right of the left edge the exact quotient is 7/2, the computed
one is the double just below it, and the handler resolves 3, not 4. -/
theorem tooltipIndex_width_406_pointer_29 :
    tooltipQuotient 406 0 29 = some (7 / 2 - 1 / 2 ^ 51) ∧
      tooltipIndex 406 0 29 = some 3 ∧
      ⌊((29 : ℚ) - 0) / (406 / (50 - 1)) + 1 / 2⌋ = 4 := by
  have hq : tooltipQuotient 406 0 29 = some (7881299347898367 / 2251799813685248) :=
    tooltipQuotient_of 406 0 29 29 (4664442471205157 / 562949953421312) _ toDouble_29
      (by rw [Nat.cast_ofNat]; exact toDouble_406_div_49) (by norm_num) toDouble_29_div_step
  refine ⟨?_, ?_, ?_⟩
  · rw [hq]
    norm_num
  · unfold tooltipIndex
    rw [hq]
    show some (mathRound _) = some 3
    rw [mathRound_eq_floor]
    refine congrArg some ?_
    rw [Int.floor_eq_iff]
    norm_num
  · rw [Int.floor_eq_iff]
    norm_num

/-! ## Drawing: where the samples are placed -/

theorem filterMap_yCoord_mapIdx (height : ℚ) (data : List ℚ) (f : Nat → ℚ → Cmd)
    (hf : ∀ i v, (f i v).yCoord = some (valueToY height v)) :
    (data.mapIdx f).filterMap Cmd.yCoord = data.map (valueToY height) := by
  induction data generalizing f with
  | nil => rfl
  | cons v rest ih =>
    rw [List.mapIdx_cons, List.filterMap_cons, hf, List.map_cons,
      ih (fun i => f (i + 1)) (fun i w => hf (i + 1) w)]

theorem filterMap_yCoord_flatten_mapIdx (height : ℚ) (data : List ℚ) (g : Nat → ℚ → List Cmd)
    (hg : ∀ i v, (g i v).filterMap Cmd.yCoord = [valueToY height v]) :
    (data.mapIdx g).flatten.filterMap Cmd.yCoord = data.map (valueToY height) := by
  induction data generalizing g with
  | nil => rfl
  | cons v rest ih =>
    rw [List.mapIdx_cons, List.flatten_cons, List.filterMap_append, hg, List.map_cons,
      ih (fun i => g (i + 1)) (fun i w => hg (i + 1) w)]
    rfl

theorem linePoint_yCoord (height stepX : ℚ) (i : Nat) (v : ℚ) :
    (linePoint height stepX i v).yCoord = some (valueToY height v) := by
  unfold linePoint
  by_cases h : i = 0 <;> simp [h, Cmd.yCoord, valueToY]

theorem barRect_yCoord (height stepX barWidth : ℚ) (sIndex i : Nat) (v : ℚ) :
    (barRect height stepX barWidth sIndex i v).yCoord = some (valueToY height v) := rfl

theorem scatterDot_yCoord (height stepX : ℚ) (i : Nat) (v : ℚ) :
    (scatterDot height stepX i v).filterMap Cmd.yCoord = [valueToY height v] := rfl

/-! ## Smoothing -/

theorem foldl_add_eq_sum (l : List ℚ) : l.foldl (fun a b => a + b) 0 = l.sum :=
  List.sum_eq_foldl.symm

/-- The sum of `n` consecutive entries from position `lo` on; positions past
the end count as `0`. -/
theorem sum_take_drop (l : List ℚ) (lo n : Nat) :
    ((l.drop lo).take n).sum = ∑ j in Finset.range n, l.getD (lo + j) 0 := by
  induction n generalizing lo with
  | zero => simp
  | succ n ih =>
    rw [Finset.sum_range_succ']
    by_cases h : lo < l.length
    · have h0 : l.getD (lo + 0) 0 = l[lo] := List.getD_eq_getElem l 0 h
      rw [List.drop_eq_getElem_cons h, List.take_succ_cons, List.sum_cons, ih (lo + 1),
        h0, add_comm]
      congr 1
      apply Finset.sum_congr rfl
      intro j _
      congr 1
      omega
    · rw [List.drop_eq_nil_of_le (by omega)]
      simp only [List.take_nil, List.sum_nil]
      symm
      have hz : ∀ k, lo ≤ k → l.getD k 0 = 0 := by
        intro k hk
        rw [List.getD_eq_getElem?_getD, List.getElem?_eq_none (by omega)]
        rfl
      rw [hz (lo + 0) (by omega), add_zero]
      exact Finset.sum_eq_zero fun j _ => hz _ (by omega)

/-- For a non-negative window the slice taken at index `i` is the run of
entries from `max 0 (i - window)` through `i`. -/
theorem slice_window (data : List ℚ) (window : Int) (hw : 0 ≤ window) (i : Nat)
    (hi : i < data.length) :
    slice data (max 0 ((i : Int) - window)) ((i : Int) + 1) =
      (data.drop (i - window.toNat)).take (i + 1 - (i - window.toNat)) := by
  have hlo : sliceIndex data.length (max 0 ((i : Int) - window)) = i - window.toNat := by
    unfold sliceIndex
    rw [if_neg (by omega)]
    omega
  have hhi : sliceIndex data.length ((i : Int) + 1) = i + 1 := by
    unfold sliceIndex
    rw [if_neg (by omega)]
    omega
  simp only [slice, hlo, hhi]

/-! ## Statistics -/

theorem foldl_min_spec (rest : List ℚ) (first : ℚ) :
    rest.foldl Min.min first ∈ first :: rest ∧
      ∀ x ∈ first :: rest, rest.foldl Min.min first ≤ x := by
  induction rest generalizing first with
  | nil => simp
  | cons y ys ih =>
    obtain ⟨hmem, hle⟩ := ih (Min.min first y)
    rw [List.foldl_cons]
    constructor
    · rcases List.mem_cons.mp hmem with h | h
      · rw [h]
        rcases min_choice first y with h' | h' <;> rw [h'] <;> simp
      · exact List.mem_cons_of_mem _ (List.mem_cons_of_mem _ h)
    · intro x hx
      have hm := hle _ (List.mem_cons_self _ _)
      rcases List.mem_cons.mp hx with rfl | hx
      · exact hm.trans (min_le_left _ _)
      · rcases List.mem_cons.mp hx with rfl | hx
        · exact hm.trans (min_le_right _ _)
        · exact hle x (List.mem_cons_of_mem _ hx)

theorem foldl_max_spec (rest : List ℚ) (first : ℚ) :
    rest.foldl Max.max first ∈ first :: rest ∧
      ∀ x ∈ first :: rest, x ≤ rest.foldl Max.max first := by
  induction rest generalizing first with
  | nil => simp
  | cons y ys ih =>
    obtain ⟨hmem, hle⟩ := ih (Max.max first y)
    rw [List.foldl_cons]
    constructor
    · rcases List.mem_cons.mp hmem with h | h
      · rw [h]
        rcases max_choice first y with h' | h' <;> rw [h'] <;> simp
      · exact List.mem_cons_of_mem _ (List.mem_cons_of_mem _ h)
    · intro x hx
      have hm := hle _ (List.mem_cons_self _ _)
      rcases List.mem_cons.mp hx with rfl | hx
      · exact (le_max_left _ _).trans hm
      · rcases List.mem_cons.mp hx with rfl | hx
        · exact (le_max_right _ _).trans hm
        · exact hle x (List.mem_cons_of_mem _ hx)

/-- What `updateStats` writes for a non-empty concatenation. -/
theorem updateStats_of_cons (series : List Series) (panel : Option Stats) (first : ℚ)
    (rest : List ℚ) (h : (series.flatMap fun s => s.data) = first :: rest) :
    updateStats series panel = some
      { current := (first :: rest).getLast (List.cons_ne_nil first rest)
        min := rest.foldl Min.min first
        max := rest.foldl Max.max first
        avg := (first :: rest).sum / (((first :: rest).length : ℚ))
        trend := if (first :: rest).getLast (List.cons_ne_nil first rest) > first
          then Trend.rising else Trend.falling } := by
  simp only [updateStats, h, foldl_add_eq_sum]

/-! ## Drawing: the order of the calls -/

theorem dropWhile_append_of_forall (p : Cmd → Bool) (l₁ l₂ : List Cmd)
    (h : ∀ c ∈ l₁, p c = true) : (l₁ ++ l₂).dropWhile p = l₂.dropWhile p := by
  induction l₁ with
  | nil => rfl
  | cons c cs ih =>
    rw [List.cons_append, List.dropWhile_cons, h c (List.mem_cons_self _ _)]
    exact ih fun d hd => h d (List.mem_cons_of_mem _ hd)

theorem linePoint_ne_fill (height stepX : ℚ) (i : Nat) (v : ℚ) :
    (linePoint height stepX i v != Cmd.fill) = true := by
  unfold linePoint
  by_cases h : i = 0 <;> simp [h]

theorem linePoint_ne_stroke (height stepX : ℚ) (i : Nat) (v : ℚ) :
    (linePoint height stepX i v != Cmd.stroke) = true := by
  unfold linePoint
  by_cases h : i = 0 <;> simp [h]

/-- The calls of the area branch for one series, written out. -/
theorem drawOneSeries_area (smooth : Bool) (theme : Theme) (width height stepX : ℚ)
    (count sIndex : Nat) (s : Series) :
    drawOneSeries ChartType.area smooth theme width height stepX count sIndex s =
      ([Cmd.setStrokeStyle theme.series[s.colorIndex]?,
        Cmd.setFillStyle theme.series[s.colorIndex]?,
        Cmd.setLineWidth 2, Cmd.beginPath] ++
        (if smooth then movingAverage s.data defaultWindow else s.data).mapIdx
          (linePoint height stepX)) ++
      ([Cmd.stroke, Cmd.lineTo width height, Cmd.lineTo 0 height,
        Cmd.setGlobalAlpha (1 / 4)] ++ [Cmd.fill, Cmd.setGlobalAlpha 1]) := by
  simp [drawOneSeries]

/-! ## Claims -/

/-- C1: appending N values one by one to an empty buffer (push, then shift
when the length exceeds 50) leaves, for N > 50, a buffer of length exactly 50
that equals the last 50 appended values in append order, and for N ≤ 50 all N
values in append order. -/
theorem rolling_buffer_keeps_last_fifty (vs : List ℚ) :
    (50 < vs.length →
      (vs.foldl pushShift []).length = 50 ∧
        vs.foldl pushShift [] = vs.drop (vs.length - 50)) ∧
    (vs.length ≤ 50 → vs.foldl pushShift [] = vs) := by
  have hclosed := foldl_pushShift vs
  simp only [MAX_POINTS] at hclosed
  refine ⟨fun h => ⟨?_, hclosed⟩, fun h => ?_⟩
  · rw [hclosed, List.length_drop]
    omega
  · rw [hclosed, Nat.sub_eq_zero_of_le h, List.drop_zero]

theorem rolling_buffer_keeps_last_fifty_witness :
    ((List.range 52).map fun n => (n : ℚ)).foldl pushShift [] =
        ((List.range 52).map fun n => (n : ℚ)).drop 2 ∧
      [(7 : ℚ), 8].foldl pushShift [] = [7, 8] :=
  ⟨((rolling_buffer_keeps_last_fifty ((List.range 52).map fun n => (n : ℚ))).1
      (by decide)).2,
    (rolling_buffer_keeps_last_fifty [7, 8]).2 (by decide)⟩

/-- C4: in every state reachable from the initial state by ticks (running or
paused), resets and run toggles, every series holds at most 50 samples. -/
theorem buffer_length_invariant (st : State) (h : Reachable st) :
    ∀ s ∈ st.series, s.data.length ≤ MAX_POINTS := by
  obtain ⟨_, n, hn, hall⟩ := reachable_allLength st h
  intro s hs
  rw [hall s hs]
  exact hn

theorem buffer_length_invariant_witness :
    Reachable (step initState (Event.tick 0 100 fun _ => 1 / 2)) ∧
      ∀ s ∈ (step initState (Event.tick 0 100 fun _ => 1 / 2)).series,
        s.data.length ≤ MAX_POINTS :=
  ⟨Reachable.step _ _ Reachable.init,
    buffer_length_invariant _ (Reachable.step _ _ Reachable.init)⟩

/-- C8: after reset every series has an empty buffer while the number of
series and their colour indices are unchanged, and `updateStats` on series
whose buffers are all empty leaves the stats panel exactly as it was. -/
theorem reset_then_stats_noop (st : State) :
    (∀ s ∈ (reset st).series, s.data = []) ∧
      (reset st).series.length = st.series.length ∧
      (reset st).series.map Series.colorIndex = st.series.map Series.colorIndex ∧
      (∀ (series : List Series) (panel : Option Stats),
        (∀ s ∈ series, s.data = []) → updateStats series panel = panel) ∧
      (draw (reset st)).stats = st.stats := by
  have hempty : ∀ s ∈ (reset st).series, s.data = [] := by
    intro t ht
    simp only [reset, List.mem_map] at ht
    obtain ⟨s, _, rfl⟩ := ht
    rfl
  have hnoop : ∀ (series : List Series) (panel : Option Stats),
      (∀ s ∈ series, s.data = []) → updateStats series panel = panel := by
    intro series panel hall
    have : (series.flatMap fun s => s.data) = [] := by
      simpa [List.flatMap] using hall
    simp [updateStats, this]
  refine ⟨hempty, by simp [reset], ?_, hnoop, ?_⟩
  · simp [reset, List.map_map, Function.comp_def]
  · simp only [draw]
    rw [hnoop _ _ hempty]
    rfl

theorem reset_then_stats_noop_witness :
    updateStats [⟨[], 0⟩, ⟨[], 1⟩, ⟨[], 2⟩] (some ⟨5, 5, 20, 35 / 3, Trend.falling⟩) =
      some ⟨5, 5, 20, 35 / 3, Trend.falling⟩ :=
  (reset_then_stats_noop initState).2.2.2.1 [⟨[], 0⟩, ⟨[], 1⟩, ⟨[], 2⟩] _ (by simp)

/-- C9: in every reachable state the three buffers have the same length, so
whenever the first series has a sample at an index every series has one, and
the tooltip the handler then shows lists one value per series, none missing. -/
theorem tooltip_lookup_safe (st : State) (h : Reachable st) :
    st.series.length = 3 ∧
      (∀ s ∈ st.series, ∀ t ∈ st.series, s.data.length = t.data.length) ∧
      ∀ (index : Int) (s0 : Series), st.series.head? = some s0 →
        (lookup s0.data index).isSome →
          (∀ s ∈ st.series, (lookup s.data index).isSome) ∧
          ∀ (canvasWidth : Nat) (rectLeft clientX pageX pageY : ℚ) (tip : Tooltip),
            tooltipIndex canvasWidth rectLeft clientX = some index →
              ((onMouseMove st.series canvasWidth rectLeft clientX pageX pageY tip).lines.map
                  some = st.series.map fun s => lookup s.data index) ∧
                (onMouseMove st.series canvasWidth rectLeft clientX pageX pageY tip).shown
                  = true := by
  obtain ⟨h3, n, _, hall⟩ := reachable_allLength st h
  refine ⟨h3, fun s hs t ht => by rw [hall s hs, hall t ht], ?_⟩
  intro index s0 h0 hsome
  have hs0 : s0 ∈ st.series := List.mem_of_mem_head? h0
  have hevery : ∀ s ∈ st.series, (lookup s.data index).isSome := by
    intro s hs
    rw [lookup_isSome_iff] at hsome ⊢
    rw [hall s hs, ← hall s0 hs0]
    exact hsome
  refine ⟨hevery, ?_⟩
  intro cw rl cx px py tip hidx
  have hcells : (st.series.map fun s => lookup s.data index).all Option.isSome = true := by
    simpa [List.all_eq_true] using hevery
  unfold onMouseMove
  rw [hidx, h0]
  simp only [hsome, hcells, if_true]
  refine ⟨?_, trivial⟩
  generalize st.series = series at hevery
  induction series with
  | nil => rfl
  | cons s rest ih =>
    have hs := hevery s (List.mem_cons_self _ _)
    obtain ⟨v, hv⟩ := Option.isSome_iff_exists.mp hs
    have ih' := ih fun t ht => hevery t (List.mem_cons_of_mem _ ht)
    simp only [List.map_cons, hv, List.filterMap_cons, id_eq] at ih' ⊢
    rw [ih']

/-- C5 as stated fails when `min = max`: the draw `r = 0` with `min = max = 5`
gives the value 5, which is not below `max`. -/
theorem randomValue_not_below_max_when_equal :
    ¬ ((5 : ℚ) ≤ 5 → (0 : ℚ) ≤ 0 → (0 : ℚ) < 1 →
        5 ≤ randomValue 5 5 0 ∧ randomValue 5 5 0 < 5) := by
  intro h
  have := (h (le_refl _) (le_refl _) one_pos).2
  simp [randomValue] at this

/-- C5 (amended): over exact rational arithmetic, with `r` standing for
`Math.random()`: for `min < max` and a draw `0 ≤ r < 1` the value
`r * (max - min) + min` lies in the half-open interval from `min` to `max`
(`min ≤ value` and `value < max`); for `min = max` the value equals `min`, so
for `min ≤ max` it is always between `min` and `max` inclusive. -/
theorem randomValue_range (min max r : ℚ) (hmm : min ≤ max) (h0 : 0 ≤ r) (h1 : r < 1) :
    min ≤ randomValue min max r ∧ randomValue min max r ≤ max ∧
      (min < max → randomValue min max r < max) ∧
      (min = max → randomValue min max r = min) := by
  unfold randomValue
  have hd : 0 ≤ max - min := sub_nonneg.mpr hmm
  refine ⟨?_, ?_, ?_, ?_⟩
  · nlinarith [mul_nonneg h0 hd]
  · nlinarith [mul_nonneg (sub_nonneg.mpr h1.le) hd]
  · intro hlt
    nlinarith [mul_pos (sub_pos.mpr h1) (sub_pos.mpr hlt)]
  · rintro rfl
    simp

theorem randomValue_range_witness :
    (0 : ℚ) ≤ randomValue 0 100 (1 / 2) ∧ randomValue 0 100 (1 / 2) < 100 ∧
      randomValue 5 5 (1 / 2) = 5 :=
  ⟨(randomValue_range 0 100 (1 / 2) (by norm_num) (by norm_num) (by norm_num)).1,
    (randomValue_range 0 100 (1 / 2) (by norm_num) (by norm_num) (by norm_num)).2.2.1
      (by norm_num),
    (randomValue_range 5 5 (1 / 2) (le_refl _) (by norm_num) (by norm_num)).2.2.2 rfl⟩

/-- C6: for a canvas of positive width (an unsigned 32-bit integer, as
`canvas.width` is) and a pointer offset the handler can compute without
overflow, the handler resolves the index `floor(q + 1/2)` (round half up, the
`Math.round` convention), where `q` is the quotient it computes:
`(clientX - rectLeft) / stepX` with `stepX = canvasWidth / (50 - 1)`, the
difference, the step and the quotient each rounded to a double, the step not
zero.  For every input the index is the round-half-up of that quotient
whenever the quotient is a finite number.  With width 490 the step is 10 and
a pointer 25 px right of the left edge resolves to 3. -/
theorem tooltip_index_round_half_up (canvasWidth : Nat) (rectLeft clientX : ℚ)
    (hw : 0 < canvasWidth) (hmax : canvasWidth < 2 ^ 32)
    (hoff : |clientX - rectLeft| ≤ 2 ^ 1000) :
    (∃ d stepX q : ℚ, toDouble (clientX - rectLeft) = some d ∧
        toDouble ((canvasWidth : ℚ) / (50 - 1)) = some stepX ∧ stepX ≠ 0 ∧
        toDouble (d / stepX) = some q ∧
        tooltipQuotient canvasWidth rectLeft clientX = some q ∧
        tooltipIndex canvasWidth rectLeft clientX = some ⌊q + 1 / 2⌋) ∧
      (∀ (w : Nat) (l x : ℚ),
        tooltipIndex w l x = (tooltipQuotient w l x).map fun q => ⌊q + 1 / 2⌋) ∧
      toDouble ((490 : ℚ) / (50 - 1)) = some 10 ∧
      (toDouble (clientX - rectLeft) = some 25 →
        tooltipIndex 490 rectLeft clientX = some 3) := by
  refine ⟨?_, ?_, toDouble_490_div_49, ?_⟩
  · have hoff' : |clientX - rectLeft| ≤ (2 : ℚ) ^ (1000 : ℤ) := by
      rw [show (1000 : ℤ) = ((1000 : ℕ) : ℤ) from rfl, zpow_natCast]
      exact hoff
    obtain ⟨d, hd, hdb⟩ := toDouble_of_abs_le _ 1000 (by norm_num) (by norm_num) hoff'
    have hw1 : (1 : ℚ) ≤ (canvasWidth : ℚ) := by exact_mod_cast hw
    have hw2 : (canvasWidth : ℚ) < 2 ^ 32 := by exact_mod_cast hmax
    have hstep0 : (0 : ℚ) ≤ (canvasWidth : ℚ) / (50 - 1) := by positivity
    have hstepU : |(canvasWidth : ℚ) / (50 - 1)| ≤ (2 : ℚ) ^ (32 : ℤ) := by
      rw [abs_of_nonneg hstep0, div_le_iff₀ (by norm_num)]
      norm_num
      linarith
    have hstepL : (2 : ℚ) ^ (-6 : ℤ) ≤ (canvasWidth : ℚ) / (50 - 1) := by
      rw [le_div_iff₀ (by norm_num)]
      norm_num
      linarith
    obtain ⟨stepX, hs, _⟩ := toDouble_of_abs_le _ 32 (by norm_num) (by norm_num) hstepU
    have hsL : (2 : ℚ) ^ (-6 : ℤ) ≤ stepX := le_toDouble _ (-6) (by norm_num) hstepL _ hs
    have hspos : 0 < stepX := lt_of_lt_of_le (by positivity) hsL
    have hquot : |d / stepX| ≤ (2 : ℚ) ^ (1006 : ℤ) := by
      rw [abs_div, abs_of_pos hspos, div_le_iff₀ hspos]
      calc |d| ≤ (2 : ℚ) ^ (1000 : ℤ) := hdb
        _ = (2 : ℚ) ^ (1006 : ℤ) * 2 ^ (-6 : ℤ) := by
          rw [← zpow_add₀ (by norm_num : (2 : ℚ) ≠ 0)]
          norm_num
        _ ≤ (2 : ℚ) ^ (1006 : ℤ) * stepX :=
          mul_le_mul_of_nonneg_left hsL (by positivity)
    obtain ⟨q, hq, _⟩ := toDouble_of_abs_le _ 1006 (by norm_num) (by norm_num) hquot
    exact ⟨d, stepX, q, hd, hs, hspos.ne.symm, hq,
      tooltipQuotient_of canvasWidth rectLeft clientX d stepX q hd hs hspos.ne.symm hq,
      tooltipIndex_of canvasWidth rectLeft clientX d stepX q hd hs hspos.ne.symm hq⟩
  · intro w l x
    unfold tooltipIndex
    have hfun : mathRound = fun q : ℚ => ⌊q + 1 / 2⌋ := funext mathRound_eq_floor
    rw [hfun]
  · intro h25
    have h3 := tooltipIndex_of 490 rectLeft clientX 25 10 (5 / 2) h25
      (by rw [Nat.cast_ofNat]; exact toDouble_490_div_49) (by norm_num) toDouble_25_div_10
    rw [h3]
    refine congrArg some ?_
    rw [Int.floor_eq_iff]
    norm_num

theorem tooltip_index_round_half_up_witness :
    tooltipIndex 490 0 25 = some 3 :=
  (tooltip_index_round_half_up 490 0 25 (by norm_num) (by norm_num)
    (by rw [sub_zero, abs_of_nonneg (by norm_num)]; norm_num)).2.2.2 toDouble_25

/-- C7: the mapping `y = H - (v / 100) * H` sends 0 to `H`, 100 to 0 and 50 to
`H / 2`, and every branch of `drawSeries` (line, area, bar, scatter) places
the plotted samples, in order, at exactly these y coordinates (the area
branch adds the two bottom corners, at `y = H`). -/
theorem value_to_y_mapping (height : ℚ) :
    valueToY height 0 = height ∧ valueToY height 100 = 0 ∧
      valueToY height 50 = height / 2 ∧
      ∀ (type : ChartType) (smooth : Bool) (theme : Theme) (width stepX : ℚ)
        (count sIndex : Nat) (s : Series),
        (drawOneSeries type smooth theme width height stepX count sIndex s).filterMap
            Cmd.yCoord =
          (if smooth then movingAverage s.data defaultWindow else s.data).map
              (valueToY height) ++
            (if type = ChartType.area then [height, height] else []) := by
  refine ⟨by simp [valueToY], by simp [valueToY], ?_, ?_⟩
  · unfold valueToY
    ring
  · intro type smooth theme width stepX count sIndex s
    cases type <;>
      simp [drawOneSeries, List.filterMap_append, Cmd.yCoord,
        filterMap_yCoord_mapIdx height _ _ (linePoint_yCoord height stepX),
        filterMap_yCoord_mapIdx height _ _ (barRect_yCoord height stepX _ sIndex),
        filterMap_yCoord_flatten_mapIdx height _ _ (scatterDot_yCoord height stepX)]

/-- C2: for a window `≥ 0`, `movingAverage` returns a list of the input's
length whose entry `i` is the arithmetic mean of the entries
`max 0 (i - window)` through `i` of the input (at most `window + 1` of them,
none later than `i`); with the default window 3, `[a]` gives `[a]` and
`[a, b, c]` gives `[a, (a + b) / 2, (a + b + c) / 3]`. -/
theorem moving_average_trailing_mean (data : List ℚ) (window : Int) (hw : 0 ≤ window) :
    (movingAverage data window).length = data.length ∧
      (∀ i : Nat, i < data.length →
        (max 0 ((i : Int) - window)).toNat ≤ i ∧
        ((i - (max 0 ((i : Int) - window)).toNat + 1 : Nat) : Int) ≤ window + 1 ∧
        (movingAverage data window)[i]? =
          some ((∑ j in Finset.Icc (max 0 ((i : Int) - window)).toNat i, data.getD j 0) /
            ((i - (max 0 ((i : Int) - window)).toNat + 1 : Nat) : ℚ))) ∧
      (∀ a : ℚ, movingAverage [a] defaultWindow = [a]) ∧
      (∀ a b c : ℚ,
        movingAverage [a, b, c] defaultWindow = [a, (a + b) / 2, (a + b + c) / 3]) := by
  refine ⟨by simp [movingAverage], ?_, ?_, ?_⟩
  · intro i hi
    have hlo : (max 0 ((i : Int) - window)).toNat = i - window.toNat := by omega
    rw [hlo]
    refine ⟨by omega, by omega, ?_⟩
    have hlen : ((data.drop (i - window.toNat)).take (i + 1 - (i - window.toNat))).length =
        i - (i - window.toNat) + 1 := by
      rw [List.length_take, List.length_drop]
      omega
    simp only [movingAverage, List.getElem?_mapIdx, List.getElem?_eq_getElem hi,
      Option.map_some', slice_window data window hw i hi, foldl_add_eq_sum, hlen,
      sum_take_drop]
    rw [← Nat.Ico_succ_right, Finset.sum_Ico_eq_sum_range]
  · intro a
    have h0 : slice [a] (max 0 (((0 : Nat) : Int) - defaultWindow)) (((0 : Nat) : Int) + 1) =
        [a] := rfl
    simp only [movingAverage, List.mapIdx_cons, List.mapIdx_nil, h0]
    norm_num
  · intro a b c
    have h0 : slice [a, b, c] (max 0 (((0 : Nat) : Int) - defaultWindow))
        (((0 : Nat) : Int) + 1) = [a] := rfl
    have h1 : slice [a, b, c] (max 0 (((0 + 1 : Nat) : Int) - defaultWindow))
        (((0 + 1 : Nat) : Int) + 1) = [a, b] := rfl
    have h2 : slice [a, b, c] (max 0 (((0 + 1 + 1 : Nat) : Int) - defaultWindow))
        (((0 + 1 + 1 : Nat) : Int) + 1) = [a, b, c] := rfl
    simp only [movingAverage, List.mapIdx_cons, List.mapIdx_nil, h0, h1, h2]
    norm_num

theorem moving_average_trailing_mean_witness :
    (movingAverage [1, 2, 3, 4, 10, 20] 3).length = 6 ∧
      (movingAverage [1, 2, 3, 4, 10, 20] 3)[5]? =
        some ((∑ j in Finset.Icc 2 5, [(1 : ℚ), 2, 3, 4, 10, 20].getD j 0) / ((4 : Nat) : ℚ)) :=
  ⟨(moving_average_trailing_mean [1, 2, 3, 4, 10, 20] 3 (by decide)).1,
    ((moving_average_trailing_mean [1, 2, 3, 4, 10, 20] 3 (by decide)).2.1 5
      (by decide)).2.2⟩

/-- C3: for three series whose concatenation `all` is non-empty, `updateStats`
writes: current = the last element of `all` (the last sample of the last
series when that series is non-empty), min and max = the least and greatest
element of `all`, avg = sum / length, and trend rising exactly when the last
element exceeds the first, falling otherwise.  The series `[10]`, `[20]`,
`[5]` give current 5, min 5, max 20, avg 35/3, falling. -/
theorem stats_of_concatenation (s0 s1 s2 : Series) (panel : Option Stats)
    (hne : s0.data ++ s1.data ++ s2.data ≠ []) :
    (∃ r : Stats, updateStats [s0, s1, s2] panel = some r ∧
      r.current = (s0.data ++ s1.data ++ s2.data).getLast hne ∧
      (∀ h2 : s2.data ≠ [], r.current = s2.data.getLast h2) ∧
      r.min ∈ s0.data ++ s1.data ++ s2.data ∧
      (∀ x ∈ s0.data ++ s1.data ++ s2.data, r.min ≤ x) ∧
      r.max ∈ s0.data ++ s1.data ++ s2.data ∧
      (∀ x ∈ s0.data ++ s1.data ++ s2.data, x ≤ r.max) ∧
      r.avg = (s0.data ++ s1.data ++ s2.data).sum /
        ((s0.data ++ s1.data ++ s2.data).length : ℚ) ∧
      (r.trend = Trend.rising ↔
        (s0.data ++ s1.data ++ s2.data).getLast hne >
          (s0.data ++ s1.data ++ s2.data).head hne) ∧
      (r.trend = Trend.falling ↔
        (s0.data ++ s1.data ++ s2.data).getLast hne ≤
          (s0.data ++ s1.data ++ s2.data).head hne)) ∧
    updateStats [⟨[10], 0⟩, ⟨[20], 1⟩, ⟨[5], 2⟩] panel =
      some ⟨5, 5, 20, 35 / 3, Trend.falling⟩ := by
  constructor
  · have hall : ([s0, s1, s2].flatMap fun s => s.data) = s0.data ++ s1.data ++ s2.data := by
      simp [List.flatMap]
    generalize s0.data ++ s1.data ++ s2.data = all at hne hall
    have hlast2 : ∀ h2 : s2.data ≠ [], all.getLast hne = s2.data.getLast h2 := by
      intro h2
      have hall2 : all = (s0.data ++ s1.data) ++ s2.data := by
        rw [← hall]
        simp [List.flatMap]
      subst hall2
      exact List.getLast_append_of_ne_nil h2
    cases all with
    | nil => exact absurd rfl hne
    | cons first rest =>
      refine ⟨_, updateStats_of_cons _ panel first rest hall, rfl, hlast2,
        (foldl_min_spec rest first).1, (foldl_min_spec rest first).2,
        (foldl_max_spec rest first).1, (foldl_max_spec rest first).2, rfl, ?_, ?_⟩
      · simp only [List.head_cons]
        split <;> simp_all
      · simp only [List.head_cons]
        split <;> simp_all
  · have hall : ([(⟨[10], 0⟩ : Series), ⟨[20], 1⟩, ⟨[5], 2⟩].flatMap fun s => s.data) =
        10 :: [20, 5] := rfl
    rw [updateStats_of_cons _ panel 10 [20, 5] hall]
    norm_num

theorem stats_of_concatenation_witness :
    updateStats [⟨[10], 0⟩, ⟨[20], 1⟩, ⟨[5], 2⟩] none =
      some ⟨5, 5, 20, 35 / 3, Trend.falling⟩ :=
  (stats_of_concatenation ⟨[10], 0⟩ ⟨[20], 1⟩ ⟨[5], 2⟩ none (by decide)).2

/-- C10 as stated fails: for the first of three series with the one sample
50, on a 490 by 100 canvas, the calls of the area branch are the ones listed,
with `stroke` before the two corner lines and the fill, and no `stroke` after
the `fill`. -/
theorem area_stroke_not_after_fill :
    drawOneSeries ChartType.area false themes.light 490 100 10 3 0 ⟨[50], 0⟩ =
        [Cmd.setStrokeStyle (some "#e53935"), Cmd.setFillStyle (some "#e53935"),
          Cmd.setLineWidth 2, Cmd.beginPath, Cmd.moveTo 0 50, Cmd.stroke,
          Cmd.lineTo 490 100, Cmd.lineTo 0 100, Cmd.setGlobalAlpha (1 / 4), Cmd.fill,
          Cmd.setGlobalAlpha 1] ∧
      strokeAfterFill
        (drawOneSeries ChartType.area false themes.light 490 100 10 3 0 ⟨[50], 0⟩) = false := by
  constructor
  · rw [drawOneSeries_area]
    norm_num [linePoint, themes.light]
  · decide

/-- C10 (amended): for chart type area and every series, `drawSeries` sets the
colours and line width, begins a path, runs the polyline through the mapped
points and strokes it; only then it extends the path to the bottom-right
corner and to the bottom-left corner, sets the opacity to 0.25, fills, and
sets the opacity back to 1.  So the fill follows the stroke, no stroke
follows the fill, and the three series are drawn one after the other. -/
theorem area_stroked_then_filled (smooth : Bool) (theme : Theme) (width height stepX : ℚ)
    (count sIndex : Nat) (s : Series) :
    drawOneSeries ChartType.area smooth theme width height stepX count sIndex s =
        [Cmd.setStrokeStyle theme.series[s.colorIndex]?,
          Cmd.setFillStyle theme.series[s.colorIndex]?,
          Cmd.setLineWidth 2, Cmd.beginPath] ++
        (if smooth then movingAverage s.data defaultWindow else s.data).mapIdx
          (linePoint height stepX) ++
        [Cmd.stroke, Cmd.lineTo width height, Cmd.lineTo 0 height,
          Cmd.setGlobalAlpha (1 / 4), Cmd.fill, Cmd.setGlobalAlpha 1] ∧
      fillAfterStroke
        (drawOneSeries ChartType.area smooth theme width height stepX count sIndex s) = true ∧
      strokeAfterFill
        (drawOneSeries ChartType.area smooth theme width height stepX count sIndex s) = false ∧
      ∀ s0 s1 s2 : Series,
        drawSeries ChartType.area smooth theme width height [s0, s1, s2] =
          drawOneSeries ChartType.area smooth theme width height (width / 49) 3 0 s0 ++
          drawOneSeries ChartType.area smooth theme width height (width / 49) 3 1 s1 ++
          drawOneSeries ChartType.area smooth theme width height (width / 49) 3 2 s2 := by
  have hpts_fill : ∀ c ∈ ([Cmd.setStrokeStyle theme.series[s.colorIndex]?,
        Cmd.setFillStyle theme.series[s.colorIndex]?,
        Cmd.setLineWidth 2, Cmd.beginPath] ++
        (if smooth then movingAverage s.data defaultWindow else s.data).mapIdx
          (linePoint height stepX)) ++ [Cmd.stroke, Cmd.lineTo width height,
          Cmd.lineTo 0 height, Cmd.setGlobalAlpha (1 / 4)], (c != Cmd.fill) = true := by
    intro c hc
    simp only [List.mem_append, List.mem_cons, List.mem_singleton, List.mem_mapIdx,
      List.not_mem_nil, or_false] at hc
    rcases hc with (((rfl | rfl | rfl | rfl) | ⟨i, _, rfl⟩) | (rfl | rfl | rfl | rfl))
    all_goals first | exact linePoint_ne_fill _ _ _ _ | simp
  have hpts_stroke : ∀ c ∈ [Cmd.setStrokeStyle theme.series[s.colorIndex]?,
        Cmd.setFillStyle theme.series[s.colorIndex]?,
        Cmd.setLineWidth 2, Cmd.beginPath] ++
        (if smooth then movingAverage s.data defaultWindow else s.data).mapIdx
          (linePoint height stepX), (c != Cmd.stroke) = true := by
    intro c hc
    simp only [List.mem_append, List.mem_cons, List.mem_singleton, List.mem_mapIdx,
      List.not_mem_nil, or_false] at hc
    rcases hc with ((rfl | rfl | rfl | rfl) | ⟨i, _, rfl⟩)
    all_goals first | exact linePoint_ne_stroke _ _ _ _ | simp
  refine ⟨?_, ?_, ?_, ?_⟩
  · rw [drawOneSeries_area]
    simp
  · rw [drawOneSeries_area, fillAfterStroke, dropWhile_append_of_forall _ _ _ hpts_stroke]
    simp [List.dropWhile_cons]
  · rw [drawOneSeries_area, strokeAfterFill, ← List.append_assoc,
      dropWhile_append_of_forall _ _ _ hpts_fill]
    simp [List.dropWhile_cons]
  · intro s0 s1 s2
    simp [drawSeries, List.mapIdx_cons, MAX_POINTS]

theorem tooltip_lookup_safe_witness :
    Reachable (step initState (Event.tick 0 100 fun _ => 1 / 2)) ∧
      (onMouseMove (step initState (Event.tick 0 100 fun _ => 1 / 2)).series
          490 0 0 7 9 ⟨false, 0, 0, []⟩).lines.map some =
        (step initState (Event.tick 0 100 fun _ => 1 / 2)).series.map fun s =>
          lookup s.data 0 :=
  ⟨Reachable.step _ _ Reachable.init,
    ((tooltip_lookup_safe _ (Reachable.step _ _ Reachable.init)).2.2 0 ⟨[50], 0⟩
      (by norm_num [step, tick, draw, initState, updateData, updateDataFrom, randomValue,
        pushShift, MAX_POINTS])
      (by decide)).2 490 0 0 7 9 ⟨false, 0, 0, []⟩
      (by
        rw [tooltipIndex_of 490 0 0 0 10 0 (by rw [sub_zero]; exact toDouble_zero)
          (by rw [Nat.cast_ofNat]; exact toDouble_490_div_49) (by norm_num)
          (by rw [zero_div]; exact toDouble_zero)]
        norm_num) |>.1⟩

end Chart
